import Mathlib

/-
Verification of the sieve cache implementation (cache.go).

The Go program keeps a doubly linked list of entries (container/list),
a map from keys to list elements, a size counter and a roaming hand
pointer used by the SIEVE eviction scan.  We embed the state shallowly:

* list elements get stable natural-number identities (`Nat` ids, handed
  out by a `nextId` counter, mirroring pointer identity);
* the linked list is the sequence of ids currently linked, front first
  (`qOrder`); `container/list.Remove` unlinks an element but keeps its
  `Value`, and `Prev` on an unlinked element returns nil, which the
  id-based model reproduces exactly;
* element payloads (`nodeEntry` values reachable through a pointer)
  live in an association list `entries : List (Nat × NodeEntry K V)`
  that is never shrunk, so a dangling hand can still read its payload,
  exactly as a retained Go pointer can;
* the Go map is an association list `keysMap : List (K × Nat)`;
* `int64` counters are modelled as `Int`; the one arithmetic step a
  caller-chosen argument can overflow, the subtraction
  `Size() - newCapacity` inside Resize, wraps through `wrap64`, the
  two-complement wrap-around Go defines for signed overflow (the
  internal size updates move by one step at a time and stay far from
  the 64-bit range on every feasible execution);
* Go zero values (`var value V`) are modelled by `Inhabited.default`;
* a nil-pointer dereference is modelled by an explicit `panicked`
  result, and the unbounded eviction `for` loop runs on fuel that is
  proved sufficient (`evictLoopFuel_ne_fuelOut`).
-/

set_option maxHeartbeats 1000000

namespace Sieve

/-- Association list lookup, modelling a Go map read. -/
def lookupA {κ α : Type} [DecidableEq κ] : List (κ × α) → κ → Option α
  | [], _ => none
  | (k, v) :: t, key => if k = key then some v else lookupA t key

/-- Association list write, modelling a Go map write: update in place when the
key is present, append when it is new. -/
def insertA {κ α : Type} [DecidableEq κ] : List (κ × α) → κ → α → List (κ × α)
  | [], key, v => [(key, v)]
  | (k, w) :: t, key, v => if k = key then (key, v) :: t else (k, w) :: insertA t key v

/-- Association list removal, modelling Go delete(map, key). -/
def eraseA {κ α : Type} [DecidableEq κ] : List (κ × α) → κ → List (κ × α)
  | [], _ => []
  | (k, w) :: t, key => if k = key then t else (k, w) :: eraseA t key

/-- The two error values the cache can return (ErrKeyNotFound, ErrEmptyCache). -/
inductive CErr where
  | keyNotFound
  | emptyCache
deriving DecidableEq, Repr

/-- Result of a Go function returning (value, error); `panicked` models a
run-time panic (nil-pointer dereference). -/
inductive GoRes (α : Type) where
  | ret (val : α) (err : Option CErr)
  | panicked
deriving DecidableEq, Repr

/-- The nodeEntry struct: visited flag, key and value. -/
structure NodeEntry (K V : Type) where
  visited : Bool
  key : K
  value : V
deriving DecidableEq, Repr

/-- The Item struct returned by Items(). -/
structure Item (K V : Type) where
  key : K
  value : V
deriving DecidableEq, Repr

/-- The Cache struct.  `qOrder` is the linked list front to back, as ids;
`entries` holds every payload ever allocated (Go pointers keep payloads
alive even after list removal); `keysMap` is the key map; `hand` is the
eviction hand (`none` = nil); `nextId` hands out fresh element ids. -/
structure Cache (K V : Type) where
  capacity : Int
  size : Int
  qOrder : List Nat
  entries : List (Nat × NodeEntry K V)
  keysMap : List (K × Nat)
  hand : Option Nat
  nextId : Nat
deriving DecidableEq, Repr

variable {K V : Type}

/-- NewCache: a fresh cache with the given capacity and empty structures. -/
def NewCache (capacity : Int) : Cache K V :=
  { capacity := capacity, size := 0, qOrder := [], entries := [], keysMap := [],
    hand := none, nextId := 0 }

/-- Size accessor. -/
def Size (c : Cache K V) : Int := c.size

/-- Capacity accessor. -/
def Capacity (c : Cache K V) : Int := c.capacity

/-- Clear: reinitialize to the empty state, keeping the capacity (init). -/
def Clear (c : Cache K V) : Cache K V :=
  { c with size := 0, qOrder := [], entries := [], keysMap := [], hand := none, nextId := 0 }

/-- Element.Prev restricted to list members: the id standing right before `e`
in `l`, none when `e` is the front or not linked into `l` (an unlinked Go
element has a nil list pointer, so Prev returns nil). -/
def listPrevAux : Nat → List Nat → Nat → Option Nat
  | _, [], _ => none
  | p, x :: t, e => if x = e then some p else listPrevAux x t e

/-- Prev of `e` in the linked list `l` (front first). -/
def listPrev : List Nat → Nat → Option Nat
  | [], _ => none
  | x :: t, e => if x = e then none else listPrevAux x t e

/-- Whether the payload of id is currently marked visited (false when the id
has no payload, a situation the Go program cannot reach). -/
def visitedB (entries : List (Nat × NodeEntry K V)) (id : Nat) : Bool :=
  match lookupA entries id with
  | some e => e.visited
  | none => false

/-- Number of linked elements whose payloads are marked visited; the measure
that bounds the eviction scan. -/
def countVisited (entries : List (Nat × NodeEntry K V)) (order : List Nat) : Nat :=
  order.countP (visitedB entries)

/-- Outcome of the eviction scan loop. -/
inductive LoopRes (K V : Type) where
  | found (id : Nat) (entries : List (Nat × NodeEntry K V))
  | panicked
  | fuelOut
deriving DecidableEq, Repr

/-- The scan loop of evict: while the current entry is visited, clear the flag
and step to Prev, wrapping to Back; break at the first unvisited entry.
Reading a missing payload, or wrapping when the list is empty (Back() = nil,
so the next Value read would dereference nil), is a panic.  The Go loop is
unbounded; the fuel used by `evict` is proved to never run out. -/
def evictLoopFuel : Nat → List Nat → List (Nat × NodeEntry K V) → Nat → LoopRes K V
  | 0, _, _, _ => .fuelOut
  | fuel + 1, order, entries, curr =>
    match lookupA entries curr with
    | none => .panicked
    | some e =>
      if e.visited then
        let entries2 := insertA entries curr { e with visited := false }
        match listPrev order curr with
        | some p => evictLoopFuel fuel order entries2 p
        | none =>
          match order.getLast? with
          | some b => evictLoopFuel fuel order entries2 b
          | none => .panicked
      else .found curr entries

/-- evict: fail with EmptyCache when size is 0, otherwise scan from the hand
(or the back when the hand is nil), then unlink the victim, decrement size,
delete the key of the victim from the map and return the key.  The hand is set to
the Prev of the victim before the removal, exactly as in the source. -/
def evict [DecidableEq K] [Inhabited K] (c : Cache K V) : GoRes K × Cache K V :=
  if c.size = 0 then (.ret default (some .emptyCache), c)
  else
    match (match c.hand with | some h => some h | none => c.qOrder.getLast?) with
    | none => (.panicked, c)
    | some start =>
      match evictLoopFuel (countVisited c.entries c.qOrder + 2) c.qOrder c.entries start with
      | .panicked => (.panicked, c)
      | .fuelOut => (.panicked, c)
      | .found victim entries2 =>
        match lookupA entries2 victim with
        | none => (.panicked, c)
        | some e =>
          (.ret e.key none,
            { c with hand := listPrev c.qOrder victim,
                     qOrder := c.qOrder.erase victim,
                     size := c.size - 1,
                     entries := entries2,
                     keysMap := eraseA c.keysMap e.key })

/-- Evict: the public wrapper around evict. -/
def Evict [DecidableEq K] [Inhabited K] (c : Cache K V) : GoRes K × Cache K V :=
  evict c

/-- Get: look the key up; when present mark the entry visited and return its
value, when absent return the zero value and ErrKeyNotFound. -/
def Get [DecidableEq K] [Inhabited V] (c : Cache K V) (key : K) : GoRes V × Cache K V :=
  match lookupA c.keysMap key with
  | none => (.ret default (some .keyNotFound), c)
  | some id =>
    match lookupA c.entries id with
    | none => (.panicked, c)
    | some e =>
      (.ret e.value none, { c with entries := insertA c.entries id { e with visited := true } })

/-- Set: no-op when capacity is nonpositive; otherwise Get (which marks an
existing key visited) and stop when the key exists; otherwise evict when the
cache is full (the result being ignored), then push a fresh entry at the
front, register it in the map and increment size.  `none` models a panic
propagating out. -/
def Set [DecidableEq K] [Inhabited K] [Inhabited V] (c : Cache K V) (key : K) (v : V) :
    Option (Cache K V) :=
  if c.capacity ≤ 0 then some c
  else
    match Get c key with
    | (.panicked, _) => none
    | (.ret _ none, c1) => some c1
    | (.ret _ (some _), c1) =>
      let step : Option (Cache K V) :=
        if c1.size = c1.capacity then
          match evict c1 with
          | (.panicked, _) => none
          | (_, c2) => some c2
        else some c1
      match step with
      | none => none
      | some c2 =>
        some { c2 with
          qOrder := c2.nextId :: c2.qOrder,
          entries := insertA c2.entries c2.nextId ⟨false, key, v⟩,
          keysMap := insertA c2.keysMap key c2.nextId,
          size := c2.size + 1,
          nextId := c2.nextId + 1 }

/-- Delete: when the key is absent return the zero value and ErrKeyNotFound;
when present delete the map entry, unlink the element and return its value.
The source neither decrements size nor touches the hand here, and the model
faithfully reproduces that. -/
def Delete [DecidableEq K] [Inhabited V] (c : Cache K V) (key : K) : GoRes V × Cache K V :=
  match lookupA c.keysMap key with
  | none => (.ret default (some .keyNotFound), c)
  | some id =>
    match lookupA c.entries id with
    | none => (.panicked, c)
    | some e =>
      (.ret e.value none, { c with keysMap := eraseA c.keysMap key, qOrder := c.qOrder.erase id })

/-- Contains: a pure map membership test; the receiver is returned unchanged
to make the absence of mutation a stateable fact. -/
def Contains [DecidableEq K] (c : Cache K V) (key : K) : Bool × Cache K V :=
  ((lookupA c.keysMap key).isSome, c)

/-- Keys: all keys of the map (Go map iteration order is arbitrary; the model
uses the association list order, and no claim depends on the order). -/
def Keys (c : Cache K V) : List K :=
  c.keysMap.map Prod.fst

/-- Helper for Items: read the payload of every map entry; a missing payload
would be a nil dereference. -/
def itemsGo (entries : List (Nat × NodeEntry K V)) : List (K × Nat) → Option (List (Item K V))
  | [] => some []
  | (k, id) :: t =>
    match lookupA entries id, itemsGo entries t with
    | some e, some r => some (⟨k, e.value⟩ :: r)
    | _, _ => none

/-- Items: all key-value pairs reachable from the map. -/
def Items (c : Cache K V) : Option (List (Item K V)) :=
  itemsGo c.entries c.keysMap

/-- Helper loop of Resize: call evict `n` times, ignoring error results,
collecting the successfully evicted keys in order; a panic aborts. -/
def resizeLoop [DecidableEq K] [Inhabited K] : Nat → Cache K V → Option (List K × Cache K V)
  | 0, c => some ([], c)
  | n + 1, c =>
    match evict c with
    | (.panicked, _) => none
    | (.ret k none, c1) => (resizeLoop n c1).map (fun r => (k :: r.1, r.2))
    | (.ret _ (some _), c1) => resizeLoop n c1

/-- Reduction of an unbounded integer into the int64 range by wrapping, the
defined overflow behaviour of Go arithmetic on signed integers
(two-complement wrap-around). -/
def wrap64 (x : Int) : Int :=
  (x + 2 ^ 63) % 2 ^ 64 - 2 ^ 63

/-- Resize: growing (or keeping) the capacity only records it; shrinking
first computes keysToEvictCount = size - newCapacity once, as an int64
subtraction that wraps on overflow, evicts that many times (none when the
wrapped count is nonpositive) ignoring failures, and finally records the
new capacity.  The loop itself only decrements a positive count, so no
further wrapping can occur inside it. -/
def Resize [DecidableEq K] [Inhabited K] (c : Cache K V) (newCapacity : Int) :
    Option (List K × Cache K V) :=
  if c.capacity ≤ newCapacity then some ([], { c with capacity := newCapacity })
  else
    (resizeLoop (wrap64 (c.size - newCapacity)).toNat c).map
      (fun r => (r.1, { r.2 with capacity := newCapacity }))

/-- One public operation, for stating reachability through operation sequences. -/
inductive Op (K V : Type) where
  | set (k : K) (v : V)
  | get (k : K)
  | containsOp (k : K)
  | deleteOp (k : K)
  | evictOp
  | resizeOp (n : Int)
  | clearOp
deriving DecidableEq, Repr

/-- Run one public operation, dropping its output; `none` models a panic. -/
def runOp [DecidableEq K] [Inhabited K] [Inhabited V] (c : Cache K V) : Op K V → Option (Cache K V)
  | .set k v => Set c k v
  | .get k => match Get c k with | (.panicked, _) => none | (_, c1) => some c1
  | .containsOp k => some (Contains c k).2
  | .deleteOp k => match Delete c k with | (.panicked, _) => none | (_, c1) => some c1
  | .evictOp => match evict c with | (.panicked, _) => none | (_, c1) => some c1
  | .resizeOp n => (Resize c n).map Prod.snd
  | .clearOp => some (Clear c)

/-- Run a sequence of public operations. -/
def runOps [DecidableEq K] [Inhabited K] [Inhabited V] (c : Cache K V) :
    List (Op K V) → Option (Cache K V)
  | [] => some c
  | op :: t =>
    match runOp c op with
    | none => none
    | some c1 => runOps c1 t

/-- Results of n successive Evict calls, with the final state. -/
def evictStream [DecidableEq K] [Inhabited K] : Nat → Cache K V → List (GoRes K) × Cache K V
  | 0, c => ([], c)
  | n + 1, c =>
    let r := evict c
    let rest := evictStream n r.2
    (r.1 :: rest.1, rest.2)

/-- A well-formed cache state: the linked ids are distinct, every linked id
has a payload, the size counter counts the linked elements, and a set hand
references a linked element.  States reachable without Delete satisfy this;
the Delete defects (no size decrement, no hand adjustment) can break it. -/
def WF (c : Cache K V) : Prop :=
  c.qOrder.Nodup ∧
  (∀ id ∈ c.qOrder, (lookupA c.entries id).isSome = true) ∧
  c.size = (c.qOrder.length : Int) ∧
  (∀ h ∈ c.hand.toList, h ∈ c.qOrder)

/-- Following the spec words (eviction, steps 2 and 3): the scan as a walk
over positions of the entry store (position 0 = head), with the visited
flags kept as a list of booleans.  While the flag at the current position is
set, clear it and advance to the predecessor position (toward the head),
wrapping to the tail (the last position) when there is none; stop at the
first clear flag, the victim.  Fuel only bounds the recursion. -/
def specScan : Nat → List Bool → Nat → Option (Nat × List Bool)
  | 0, _, _ => none
  | fuel + 1, flags, pos =>
    match flags.get? pos with
    | none => none
    | some true =>
      specScan fuel (flags.set pos false) (if pos = 0 then flags.length - 1 else pos - 1)
    | some false => some (pos, flags)

/-- Following the spec words (resize): call evict exactly n times, ignoring
per-call error returns, collecting each successfully evicted key in order. -/
def evictTimes [DecidableEq K] [Inhabited K] : Nat → Cache K V → Option (List K × Cache K V)
  | 0, c => some ([], c)
  | n + 1, c =>
    match evict c with
    | (.panicked, _) => none
    | (.ret k none, c1) => (evictTimes n c1).map (fun r => (k :: r.1, r.2))
    | (.ret _ (some _), c1) => evictTimes n c1

/-- The state Set builds when it inserts a fresh key: a new entry at the
front with visited = false, a new index registration, size incremented. -/
def pushNew [DecidableEq K] (c : Cache K V) (key : K) (v : V) : Cache K V :=
  { c with qOrder := c.nextId :: c.qOrder,
           entries := insertA c.entries c.nextId ⟨false, key, v⟩,
           keysMap := insertA c.keysMap key c.nextId,
           size := c.size + 1,
           nextId := c.nextId + 1 }

/-- The conclusion of claim C4: evict scans from the hand (from the tail when
the hand is unset), the victim is the position the spec scan stops at, the
hand becomes the predecessor of the victim (unset when the victim is the head),
the victim leaves the entry store and the index, size drops by one, the
key of the victim is returned, and the surviving entries carry exactly the flags
the spec scan left behind. -/
def EvictFollowsScan [DecidableEq K] [Inhabited K] (c : Cache K V) : Prop :=
  ∃ start p victim flags2 e0 c2,
    (c.hand = none → start = c.qOrder.length - 1) ∧
    (∀ h, c.hand = some h → c.qOrder.get? start = some h) ∧
    specScan (countVisited c.entries c.qOrder + 2) (c.qOrder.map (visitedB c.entries)) start =
      some (p, flags2) ∧
    c.qOrder.get? p = some victim ∧
    lookupA c.entries victim = some e0 ∧
    flags2.get? p = some false ∧
    evict c = (GoRes.ret e0.key none, c2) ∧
    c2.capacity = c.capacity ∧
    c2.size = c.size - 1 ∧
    c2.qOrder = c.qOrder.eraseIdx p ∧
    c2.keysMap = eraseA c.keysMap e0.key ∧
    c2.hand = (if p = 0 then none else c.qOrder.get? (p - 1)) ∧
    c2.nextId = c.nextId ∧
    (∀ j id0, c.qOrder.get? j = some id0 → ∃ e1 b, lookupA c.entries id0 = some e1 ∧
      flags2.get? j = some b ∧ lookupA c2.entries id0 = some { e1 with visited := b })

/-- The conclusion of claim C6: with nonpositive capacity Set is the
identity; with positive capacity, Set on a present key only turns the
visited flag of that entry on, and Set on an absent key first evicts when
the cache is full and then pushes the new entry. -/
def SetBehaviour [DecidableEq K] [Inhabited K] [Inhabited V] (c : Cache K V) (k : K) (v : V) :
    Prop :=
  (c.capacity ≤ 0 → Set c k v = some c) ∧
  (0 < c.capacity →
    (∀ id, lookupA c.keysMap k = some id →
      ∃ e, lookupA c.entries id = some e ∧
        Set c k v = some { c with entries := insertA c.entries id { e with visited := true } }) ∧
    (lookupA c.keysMap k = none →
      (¬c.size = c.capacity → Set c k v = some (pushNew c k v)) ∧
      (c.size = c.capacity →
        ∀ r c2, evict c = (r, c2) →
          (r = GoRes.panicked → Set c k v = none) ∧
          (¬r = GoRes.panicked → Set c k v = some (pushNew c2 k v)))))

/-- A concrete well-formed cache, the state the capacity-3 scenario of the
spec reaches just before its eviction: keys 1,2,3 inserted in that order,
all three entries visited, hand unset. -/
def demoCache : Cache Nat Nat :=
  { capacity := 3, size := 3, qOrder := [2, 1, 0],
    entries := [(0, ⟨true, 1, 10⟩), (1, ⟨true, 2, 20⟩), (2, ⟨true, 3, 30⟩)],
    keysMap := [(1, 0), (2, 1), (3, 2)],
    hand := none, nextId := 3 }

/-- The concrete reachable state after Set(1,10) on a fresh capacity-5
cache, used to exhibit the wrapped excess computation of Resize at the
smallest int64 argument. -/
def smallCache : Cache Nat Nat :=
  { capacity := 5, size := 1, qOrder := [0], entries := [(0, ⟨false, 1, 10⟩)],
    keysMap := [(1, 0)], hand := none, nextId := 1 }

/-- C1: the claim says Delete on a present key removes the entry from the
store and the index, decrements size and returns the value.  On the reachable
one-entry cache below, Delete does remove the entry from both structures and
returns the stored value, but the size counter stays 1: the source never
decrements size in Delete, contradicting the spec (Section 4.4). -/
theorem c1_delete_keeps_size :
    (runOps (NewCache 5 : Cache Nat Nat) [Op.set 1 10]).map
        (fun c => ((Delete c 1).1, (Delete c 1).2.keysMap, (Delete c 1).2.qOrder,
          Size (Delete c 1).2)) =
      some (GoRes.ret 10 none, [], [], 1) := by
  decide

/-- C2: the claim says index cardinality always equals Size() after every
operation sequence.  After Set(1,10) then Delete(1) on a fresh capacity-5
cache, Size() is 1 while Keys() and Items() are empty: the invariant fails
because Delete does not decrement size. -/
theorem c2_size_diverges_from_index :
    (runOps (NewCache 5 : Cache Nat Nat) [Op.set 1 10, Op.deleteOp 1]).map
        (fun c => (Size c, (Keys c).length, Items c)) =
      some (1, 0, some []) := by
  decide

/-- C3: the claim says Evict on a reachable cache holding no entries fails
with EmptyCache and never panics.  After Set(1,10) then Delete(1) the cache
holds no entries (empty list, empty index) yet size is still 1, so Evict
skips the EmptyCache check, finds a nil hand, takes Back() of the empty list
(nil) and dereferences it: a panic, not an EmptyCache failure. -/
theorem c3_evict_panics_on_emptied_cache :
    (runOps (NewCache 5 : Cache Nat Nat) [Op.set 1 10, Op.deleteOp 1]).map
        (fun c => (c.qOrder, c.keysMap, (Evict c).1)) =
      some ([], [], GoRes.panicked) := by
  decide

/-- C5: on a fresh capacity-3 cache, with keys A,B,C rendered as 1,2,3 and
values 10,20,30, the sequence Set(A),Set(B),Set(C),Set(A),Get(B),Get(C)
followed by Evict() succeeds and returns key A: all three entries are
visited, the scan demotes A,B,C from the tail, wraps back to the tail and
evicts A, now unvisited. -/
theorem c5_scenario_evicts_a :
    (runOps (NewCache 3 : Cache Nat Nat)
        [Op.set 1 10, Op.set 2 20, Op.set 3 30, Op.set 1 10, Op.get 2, Op.get 3]).map
        (fun c => (Evict c).1) =
      some (GoRes.ret 1 none) := by
  decide

/-- C7: Contains reports exactly index membership and leaves the whole state
unchanged, so any number of subsequent Evict calls behaves identically with
or without the Contains call; Get, by contrast, can change the next victim:
after inserting 1,2,3 the next victim is 1, but after a Get(1) it is 2. -/
theorem c7_contains_pure_get_touches {K V : Type} [DecidableEq K] [Inhabited K] [Inhabited V] :
    (∀ (c : Cache K V) (k : K), (Contains c k).1 = (lookupA c.keysMap k).isSome) ∧
    (∀ (c : Cache K V) (k : K), (Contains c k).2 = c) ∧
    (∀ (c : Cache K V) (k : K) (n : Nat), evictStream n (Contains c k).2 = evictStream n c) ∧
    ((runOps (NewCache 5 : Cache Nat Nat) [Op.set 1 10, Op.set 2 20, Op.set 3 30]).map
        (fun c => ((Evict c).1, (Evict (Get c 1).2).1)) =
      some (GoRes.ret 1 none, GoRes.ret 2 none) ∧
      (GoRes.ret 1 none : GoRes Nat) ≠ GoRes.ret 2 none) := by
  refine ⟨fun c k => rfl, fun c k => rfl, fun c k n => rfl, by decide, by decide⟩

/-- C9: whenever Get, Delete or evict returns an error value, the cache state
coming back is exactly the state passed in: the error paths mutate nothing. -/
theorem c9_error_paths_leave_state {K V : Type} [DecidableEq K] [Inhabited K] [Inhabited V] :
    (∀ (c : Cache K V) (k : K) (v : V) (e : CErr) (c2 : Cache K V),
      Get c k = (GoRes.ret v (some e), c2) → c2 = c) ∧
    (∀ (c : Cache K V) (k : K) (v : V) (e : CErr) (c2 : Cache K V),
      Delete c k = (GoRes.ret v (some e), c2) → c2 = c) ∧
    (∀ (c : Cache K V) (k : K) (e : CErr) (c2 : Cache K V),
      evict c = (GoRes.ret k (some e), c2) → c2 = c) := by
  refine ⟨?_, ?_, ?_⟩
  · intro c k v e c2 h
    simp only [Get] at h
    split at h
    · injection h with h1 h2; exact h2.symm
    · split at h
      · cases h
      · injection h with h1 h2; injection h1 with hv he; cases he
  · intro c k v e c2 h
    simp only [Delete] at h
    split at h
    · injection h with h1 h2; exact h2.symm
    · split at h
      · cases h
      · injection h with h1 h2; injection h1 with hv he; cases he
  · intro c k e c2 h
    simp only [evict] at h
    split at h
    · injection h with h1 h2; exact h2.symm
    · split at h
      · cases h
      · split at h
        · cases h
        · cases h
        · split at h
          · cases h
          · injection h with h1 h2; injection h1 with hv he; cases he

/-- C9 witness: a failing Get on a fresh cache hands the state back unchanged. -/
theorem c9_error_paths_leave_state_witness :
    (Get (NewCache 3 : Cache Nat Nat) 7).2 = NewCache 3 :=
  c9_error_paths_leave_state.1 (NewCache 3) 7 0 CErr.keyNotFound _ rfl

/-- C10: a Get or Delete that fails with KeyNotFound carries the zero value
of the value type (modelled as default) in its value slot, and an evict that
fails with EmptyCache carries the zero value of the key type. -/
theorem c10_zero_values_on_error {K V : Type} [DecidableEq K] [Inhabited K] [Inhabited V] :
    (∀ (c : Cache K V) (k : K) (v : V) (c2 : Cache K V),
      Get c k = (GoRes.ret v (some CErr.keyNotFound), c2) → v = default) ∧
    (∀ (c : Cache K V) (k : K) (v : V) (c2 : Cache K V),
      Delete c k = (GoRes.ret v (some CErr.keyNotFound), c2) → v = default) ∧
    (∀ (c : Cache K V) (k : K) (c2 : Cache K V),
      evict c = (GoRes.ret k (some CErr.emptyCache), c2) → k = default) := by
  refine ⟨?_, ?_, ?_⟩
  · intro c k v c2 h
    simp only [Get] at h
    split at h
    · injection h with h1 h2; injection h1 with hv he; exact hv.symm
    · split at h
      · cases h
      · injection h with h1 h2; injection h1 with hv he; cases he
  · intro c k v c2 h
    simp only [Delete] at h
    split at h
    · injection h with h1 h2; injection h1 with hv he; exact hv.symm
    · split at h
      · cases h
      · injection h with h1 h2; injection h1 with hv he; cases he
  · intro c k c2 h
    simp only [evict] at h
    split at h
    · injection h with h1 h2; injection h1 with hv he; exact hv.symm
    · split at h
      · cases h
      · split at h
        · cases h
        · cases h
        · split at h
          · cases h
          · injection h with h1 h2; injection h1 with hv he; cases he

/-- C10 witness: a failing Get on a fresh cache returns the zero value 0. -/
theorem c10_zero_values_on_error_witness : (0 : Nat) = default :=
  c10_zero_values_on_error.1 (NewCache 3 : Cache Nat Nat) 7 0 _ rfl

theorem lookupA_insertA_self {κ α : Type} [DecidableEq κ] (l : List (κ × α)) (k : κ) (v : α) :
    lookupA (insertA l k v) k = some v := by
  induction l with
  | nil => simp [insertA, lookupA]
  | cons p t ih =>
    obtain ⟨k0, v0⟩ := p
    by_cases h : k0 = k
    · simp [insertA, h, lookupA]
    · simp [insertA, h, lookupA, ih]

theorem lookupA_insertA_ne {κ α : Type} [DecidableEq κ] (l : List (κ × α)) (k k2 : κ) (v : α)
    (hne : k2 ≠ k) : lookupA (insertA l k v) k2 = lookupA l k2 := by
  induction l with
  | nil => simp [insertA, lookupA, Ne.symm hne]
  | cons p t ih =>
    obtain ⟨k0, v0⟩ := p
    by_cases h : k0 = k
    · subst h
      simp [insertA, lookupA, Ne.symm hne]
    · simp only [insertA, if_neg h, lookupA]
      rw [ih]

theorem listPrevAux_not_mem (p : Nat) (l : List Nat) (e : Nat) (h : e ∉ l) :
    listPrevAux p l e = none := by
  induction l generalizing p with
  | nil => rfl
  | cons x t ih =>
    have hx : x ≠ e := fun hh => h (hh ▸ List.mem_cons_self x t)
    simp only [listPrevAux, if_neg hx]
    exact ih x (fun hm => h (List.mem_cons_of_mem x hm))

theorem listPrev_not_mem (l : List Nat) (e : Nat) (h : e ∉ l) : listPrev l e = none := by
  cases l with
  | nil => rfl
  | cons x t =>
    have hx : x ≠ e := fun hh => h (hh ▸ List.mem_cons_self x t)
    simp only [listPrev, if_neg hx]
    exact listPrevAux_not_mem x t e (fun hm => h (List.mem_cons_of_mem x hm))

theorem listPrevAux_sound : ∀ (p : Nat) (l : List Nat) (e q : Nat),
    listPrevAux p l e = some q → q = p ∨ q ∈ l := by
  intro p l
  induction l generalizing p with
  | nil => intro e q h; cases h
  | cons x t ih =>
    intro e q h
    by_cases hx : x = e
    · simp only [listPrevAux, if_pos hx] at h
      exact Or.inl (Option.some.inj h).symm
    · simp only [listPrevAux, if_neg hx] at h
      rcases ih x e q h with h1 | h2
      · exact Or.inr (h1 ▸ List.mem_cons_self x t)
      · exact Or.inr (List.mem_cons_of_mem x h2)

theorem listPrev_mem (l : List Nat) (e q : Nat) (h : listPrev l e = some q) : q ∈ l := by
  cases l with
  | nil => cases h
  | cons x t =>
    by_cases hx : x = e
    · simp only [listPrev, if_pos hx] at h; cases h
    · simp only [listPrev, if_neg hx] at h
      rcases listPrevAux_sound x t e q h with h1 | h2
      · exact h1 ▸ List.mem_cons_self x t
      · exact List.mem_cons_of_mem x h2

theorem listPrevAux_get?_zero (p : Nat) (t : List Nat) (x : Nat) (h : t.get? 0 = some x) :
    listPrevAux p t x = some p := by
  cases t with
  | nil => cases h
  | cons y s =>
    have hy : y = x := by simpa using h
    simp [listPrevAux, hy]

theorem listPrevAux_get?_succ : ∀ (p : Nat) (t : List Nat), t.Nodup → ∀ (k x : Nat),
    t.get? (k + 1) = some x → listPrevAux p t x = t.get? k := by
  intro p t
  induction t generalizing p with
  | nil => intro _ k x h; cases h
  | cons y s ih =>
    intro hnd k x h
    have hys : y ∉ s := (List.nodup_cons.mp hnd).1
    have hsx : x ∈ s := List.get?_mem h
    have hyx : y ≠ x := fun hh => hys (hh ▸ hsx)
    cases k with
    | zero =>
      simp only [listPrevAux, if_neg hyx]
      rw [listPrevAux_get?_zero y s x h]
      rfl
    | succ k2 =>
      simp only [listPrevAux, if_neg hyx]
      exact ih y (List.nodup_cons.mp hnd).2 k2 x h

theorem listPrev_get?_zero (l : List Nat) (x : Nat) (h : l.get? 0 = some x) :
    listPrev l x = none := by
  cases l with
  | nil => cases h
  | cons y s =>
    have hy : y = x := by simpa using h
    simp [listPrev, hy]

theorem listPrev_get?_succ (l : List Nat) (hnd : l.Nodup) (k x : Nat)
    (h : l.get? (k + 1) = some x) : listPrev l x = l.get? k := by
  cases l with
  | nil => cases h
  | cons y s =>
    have hys : y ∉ s := (List.nodup_cons.mp hnd).1
    have hsx : x ∈ s := List.get?_mem h
    have hyx : y ≠ x := fun hh => hys (hh ▸ hsx)
    cases k with
    | zero =>
      simp only [listPrev, if_neg hyx]
      rw [listPrevAux_get?_zero y s x h]
      rfl
    | succ k2 =>
      simp only [listPrev, if_neg hyx]
      exact listPrevAux_get?_succ y s (List.nodup_cons.mp hnd).2 k2 x h

theorem nodup_get?_inj (l : List Nat) (hnd : l.Nodup) (i j : Nat) (x : Nat)
    (hi : l.get? i = some x) (hj : l.get? j = some x) : i = j := by
  induction l generalizing i j with
  | nil => cases hi
  | cons y t ih =>
    have hyt : y ∉ t := (List.nodup_cons.mp hnd).1
    cases i with
    | zero =>
      cases j with
      | zero => rfl
      | succ j2 =>
        have hy : y = x := by simpa using hi
        subst hy
        exact absurd (List.get?_mem (show t.get? j2 = some y from hj)) hyt
    | succ i2 =>
      cases j with
      | zero =>
        have hy : y = x := by simpa using hj
        subst hy
        exact absurd (List.get?_mem (show t.get? i2 = some y from hi)) hyt
      | succ j2 =>
        exact congrArg Nat.succ (ih (List.nodup_cons.mp hnd).2 i2 j2 hi hj)

theorem erase_get?_eq_eraseIdx : ∀ (l : List Nat), l.Nodup → ∀ (p : Nat) (x : Nat),
    l.get? p = some x → l.erase x = l.eraseIdx p := by
  intro l
  induction l with
  | nil => intro _ p x h; cases h
  | cons y t ih =>
    intro hnd p x h
    cases p with
    | zero =>
      have hy : y = x := by simpa using h
      subst hy
      simp [List.erase_cons, List.eraseIdx]
    | succ p2 =>
      have hx : x ∈ t := List.get?_mem h
      have hy : y ≠ x := fun hh => (List.nodup_cons.mp hnd).1 (hh ▸ hx)
      simp [List.erase_cons, hy, List.eraseIdx, ih (List.nodup_cons.mp hnd).2 p2 x h]

theorem countP_congr_on (l : List Nat) (p q : Nat → Bool) (h : ∀ x ∈ l, p x = q x) :
    l.countP p = l.countP q := by
  induction l with
  | nil => simp
  | cons x t ih =>
    rw [List.countP_cons, List.countP_cons, h x (List.mem_cons_self x t),
      ih (fun y hy => h y (List.mem_cons_of_mem x hy))]

theorem countP_le_on (l : List Nat) (p q : Nat → Bool)
    (h : ∀ x ∈ l, q x = true → p x = true) : l.countP q ≤ l.countP p := by
  induction l with
  | nil => simp
  | cons x t ih =>
    rw [List.countP_cons, List.countP_cons]
    have h1 : t.countP q ≤ t.countP p := ih (fun y hy => h y (List.mem_cons_of_mem x hy))
    have h2 : (if q x = true then 1 else 0) ≤ (if p x = true then 1 else 0) := by
      by_cases hq : q x = true
      · rw [if_pos hq, if_pos (h x (List.mem_cons_self x t) hq)]
      · simp [hq]
    omega

theorem countP_lt_on (l : List Nat) (p q : Nat → Bool) (a : Nat) (ha : a ∈ l)
    (hpa : p a = true) (hqa : q a = false)
    (h : ∀ x ∈ l, q x = true → p x = true) : l.countP q < l.countP p := by
  induction l with
  | nil => cases ha
  | cons x t ih =>
    rw [List.countP_cons, List.countP_cons]
    rcases List.mem_cons.mp ha with rfl | hat
    · rw [hpa, hqa]
      have := countP_le_on t p q (fun y hy hq => h y (List.mem_cons_of_mem a hy) hq)
      simp only [if_true, Bool.false_eq_true, if_false]
      omega
    · have h1 := ih hat (fun y hy hq => h y (List.mem_cons_of_mem x hy) hq)
      have h2 : (if q x = true then 1 else 0) ≤ (if p x = true then 1 else 0) := by
        by_cases hq : q x = true
        · rw [if_pos hq, if_pos (h x (List.mem_cons_self x t) hq)]
        · simp [hq]
      omega

theorem visitedB_insertA (entries : List (Nat × NodeEntry K V)) (id j : Nat)
    (e : NodeEntry K V) :
    visitedB (insertA entries id e) j = if j = id then e.visited else visitedB entries j := by
  by_cases h : j = id
  · subst h; simp [visitedB, lookupA_insertA_self]
  · simp [visitedB, h, lookupA_insertA_ne entries id j e h]

theorem countVisited_insertA_lt (entries : List (Nat × NodeEntry K V)) (order : List Nat)
    (id : Nat) (e : NodeEntry K V) (hm : id ∈ order) (hl : lookupA entries id = some e)
    (hv : e.visited = true) :
    countVisited (insertA entries id { e with visited := false }) order <
      countVisited entries order := by
  apply countP_lt_on order (visitedB entries) (visitedB (insertA entries id { e with visited := false })) id hm
  · simp [visitedB, hl, hv]
  · rw [visitedB_insertA, if_pos rfl]
  · intro x hx hq
    rw [visitedB_insertA] at hq
    by_cases hxi : x = id
    · rw [if_pos hxi] at hq; simp at hq
    · rw [if_neg hxi] at hq; exact hq

theorem countVisited_insertA_of_not_mem (entries : List (Nat × NodeEntry K V))
    (order : List Nat) (id : Nat) (e : NodeEntry K V) (hm : id ∉ order) :
    countVisited (insertA entries id e) order = countVisited entries order :=
  countP_congr_on order _ _ (fun x hx => by
    rw [visitedB_insertA, if_neg (fun hh : x = id => hm (hh ▸ hx))])

theorem evictLoopFuel_ne_fuelOut {K V : Type} : ∀ (fuel : Nat) (order : List Nat)
    (entries : List (Nat × NodeEntry K V)) (curr : Nat),
    countVisited entries order + (if curr ∈ order then 0 else 1) < fuel →
    evictLoopFuel fuel order entries curr ≠ LoopRes.fuelOut := by
  intro fuel
  induction fuel with
  | zero => intro order entries curr h; exact absurd h (Nat.not_lt_zero _)
  | succ fuel ih =>
    intro order entries curr h
    cases hl : lookupA entries curr with
    | none => simp [evictLoopFuel, hl]
    | some e =>
      by_cases hv : e.visited
      · cases hp : listPrev order curr with
        | some p =>
          have hpm : p ∈ order := listPrev_mem order curr p hp
          have hcm : curr ∈ order := by
            by_contra hno
            rw [listPrev_not_mem order curr hno] at hp; cases hp
          have hlt := countVisited_insertA_lt entries order curr e hcm hl hv
          simp only [evictLoopFuel, hl, if_pos hv, hp]
          apply ih
          rw [if_pos hpm]
          rw [if_pos hcm] at h
          omega
        | none =>
          cases hb : order.getLast? with
          | some b =>
            have hbm : b ∈ order := by
              rw [List.getLast?_eq_get?] at hb
              exact List.get?_mem hb
            simp only [evictLoopFuel, hl, if_pos hv, hp, hb]
            by_cases hcm : curr ∈ order
            · have hlt := countVisited_insertA_lt entries order curr e hcm hl hv
              apply ih
              rw [if_pos hbm]
              rw [if_pos hcm] at h
              omega
            · have heq := countVisited_insertA_of_not_mem entries order curr
                { e with visited := false } hcm
              apply ih
              rw [if_pos hbm, heq]
              rw [if_neg hcm] at h
              omega
          | none => simp [evictLoopFuel, hl, if_pos hv, hp, hb]
      · simp [evictLoopFuel, hl, if_neg hv]

theorem scan_lockstep {K V : Type} :
    ∀ (fuel : Nat) (order : List Nat) (base entries : List (Nat × NodeEntry K V))
      (flags : List Bool) (pos : Nat) (id : Nat),
      order.Nodup →
      flags.length = order.length →
      order.get? pos = some id →
      (∀ j id0, order.get? j = some id0 → ∃ e1 b, lookupA base id0 = some e1 ∧
        flags.get? j = some b ∧ lookupA entries id0 = some { e1 with visited := b }) →
      (evictLoopFuel fuel order entries id = LoopRes.fuelOut ∧ specScan fuel flags pos = none) ∨
      (∃ p victim flags2 entries2,
        specScan fuel flags pos = some (p, flags2) ∧
        order.get? p = some victim ∧
        evictLoopFuel fuel order entries id = LoopRes.found victim entries2 ∧
        flags2.length = order.length ∧
        flags2.get? p = some false ∧
        (∀ j id0, order.get? j = some id0 → ∃ e1 b, lookupA base id0 = some e1 ∧
          flags2.get? j = some b ∧ lookupA entries2 id0 = some { e1 with visited := b })) := by
  intro fuel
  induction fuel with
  | zero =>
    intro order base entries flags pos id _ _ _ _
    exact Or.inl ⟨rfl, rfl⟩
  | succ fuel ih =>
    intro order base entries flags pos id hnd hlen hpos hrel
    obtain ⟨e1, b, hbase, hflag, hent⟩ := hrel pos id hpos
    cases b with
    | false =>
      right
      refine ⟨pos, id, flags, entries, ?_, hpos, ?_, hlen, hflag, hrel⟩
      · simp only [specScan, hflag]
      · simp only [evictLoopFuel, hent]
        rw [if_neg Bool.false_ne_true]
    | true =>
      have hrel2 : ∀ j id0, order.get? j = some id0 → ∃ e2 b2, lookupA base id0 = some e2 ∧
          (flags.set pos false).get? j = some b2 ∧
          lookupA (insertA entries id { e1 with visited := false }) id0 =
            some { e2 with visited := b2 } := by
        intro j id0 hj
        obtain ⟨e2, b2, hb2, hf2, he2⟩ := hrel j id0 hj
        by_cases hji : j = pos
        · subst hji
          have hid : id0 = id := by
            rw [hpos] at hj
            exact (Option.some.inj hj).symm
          subst hid
          have hplt : j < flags.length := by
            by_contra hno
            rw [List.get?_len_le (Nat.le_of_not_lt hno)] at hflag
            cases hflag
          refine ⟨e1, false, hbase, ?_, ?_⟩
          · rw [List.get?_set_eq_of_lt _ hplt]
          · rw [lookupA_insertA_self]
        · have hne : id0 ≠ id := fun hh => hji (nodup_get?_inj order hnd j pos id (hh ▸ hj) hpos)
          refine ⟨e2, b2, hb2, ?_, ?_⟩
          · rw [List.get?_set_ne _ _ (fun hh => hji hh.symm)]
            exact hf2
          · rw [lookupA_insertA_ne entries id id0 _ hne]
            exact he2
      have hplt : pos < order.length := by
        by_contra hno
        rw [List.get?_len_le (Nat.le_of_not_lt hno)] at hpos
        cases hpos
      have hlen2 : (flags.set pos false).length = order.length := by
        rw [List.length_set]; exact hlen
      by_cases hp0 : pos = 0
      · subst hp0
        have hlp : listPrev order id = none := listPrev_get?_zero order id hpos
        cases hlastv : order.getLast? with
        | none =>
          exfalso
          rw [List.getLast?_eq_get?, List.get?_eq_none] at hlastv
          omega
        | some lastid =>
          have hlastid : order.get? (order.length - 1) = some lastid := by
            rw [List.getLast?_eq_get?] at hlastv
            exact hlastv
          have hstep := ih order base (insertA entries id { e1 with visited := false })
            (flags.set 0 false) (order.length - 1) lastid hnd hlen2 hlastid hrel2
          have hcode : evictLoopFuel (fuel + 1) order entries id =
              evictLoopFuel fuel order (insertA entries id { e1 with visited := false })
                lastid := by
            simp only [evictLoopFuel, hent, hlp, hlastv, if_true]
          have hspec : specScan (fuel + 1) flags 0 =
              specScan fuel (flags.set 0 false) (flags.length - 1) := by
            simp only [specScan, hflag, if_true]
          rw [hcode, hspec, hlen]
          exact hstep
      · obtain ⟨j, rfl⟩ : ∃ j, pos = j + 1 := ⟨pos - 1, by omega⟩
        have hlp : listPrev order id = order.get? j := listPrev_get?_succ order hnd j id hpos
        cases hjv : order.get? j with
        | none =>
          exfalso
          rw [List.get?_eq_none] at hjv
          omega
        | some previd =>
          have hstep := ih order base (insertA entries id { e1 with visited := false })
            (flags.set (j + 1) false) j previd hnd hlen2 hjv hrel2
          have hcode : evictLoopFuel (fuel + 1) order entries id =
              evictLoopFuel fuel order (insertA entries id { e1 with visited := false })
                previd := by
            simp only [evictLoopFuel, hent, hlp, hjv, if_true]
          have hspec : specScan (fuel + 1) flags (j + 1) =
              specScan fuel (flags.set (j + 1) false) j := by
            simp only [specScan, hflag]
            rw [if_neg (Nat.succ_ne_zero j), Nat.add_sub_cancel]
          rw [hcode, hspec]
          exact hstep

/-- C4: on every well-formed non-empty cache, evict behaves exactly as the
spec describes the SIEVE scan: it starts at the hand when set and at the
tail otherwise, clears visited flags moving toward the head and wrapping to
the tail, evicts the first unvisited entry reached, sets the hand to the
predecessor of the victim (unset when the victim was the head), removes the
victim from the entry store and the index, decrements size and returns the
key of the victim. -/
theorem c4_evict_follows_spec_scan {K V : Type} [DecidableEq K] [Inhabited K] [Inhabited V]
    (c : Cache K V) (hwf : WF c) (hsz : 0 < c.size) : EvictFollowsScan c := by
  obtain ⟨hnd, hpay, hsizeq, hhand⟩ := hwf
  have hlen0 : 0 < c.qOrder.length := by
    rw [hsizeq] at hsz
    exact_mod_cast hsz
  have hsz0 : ¬(c.size = 0) := by
    intro hh; rw [hh] at hsz; exact lt_irrefl 0 hsz
  have hmain : ∀ start sid, c.qOrder.get? start = some sid →
      (match c.hand with | some h => some h | none => c.qOrder.getLast?) = some sid →
      ∃ p victim flags2 e0 c2,
        specScan (countVisited c.entries c.qOrder + 2) (c.qOrder.map (visitedB c.entries))
          start = some (p, flags2) ∧
        c.qOrder.get? p = some victim ∧
        lookupA c.entries victim = some e0 ∧
        flags2.get? p = some false ∧
        evict c = (GoRes.ret e0.key none, c2) ∧
        c2.capacity = c.capacity ∧
        c2.size = c.size - 1 ∧
        c2.qOrder = c.qOrder.eraseIdx p ∧
        c2.keysMap = eraseA c.keysMap e0.key ∧
        c2.hand = (if p = 0 then none else c.qOrder.get? (p - 1)) ∧
        c2.nextId = c.nextId ∧
        (∀ j id0, c.qOrder.get? j = some id0 → ∃ e1 b, lookupA c.entries id0 = some e1 ∧
          flags2.get? j = some b ∧ lookupA c2.entries id0 = some { e1 with visited := b }) := by
    intro start sid hsid hmatch
    have hrelinit : ∀ j id0, c.qOrder.get? j = some id0 → ∃ e1 b,
        lookupA c.entries id0 = some e1 ∧
        (c.qOrder.map (visitedB c.entries)).get? j = some b ∧
        lookupA c.entries id0 = some { e1 with visited := b } := by
      intro j id0 hj
      have hm : id0 ∈ c.qOrder := List.get?_mem hj
      have hps := hpay id0 hm
      cases hl : lookupA c.entries id0 with
      | none => rw [hl] at hps; simp at hps
      | some e1 =>
        refine ⟨e1, e1.visited, rfl, ?_, ?_⟩
        · rw [List.get?_map, hj]
          simp [visitedB, hl]
        · exact congrArg some (by cases e1; rfl)
    have hflen : (c.qOrder.map (visitedB c.entries)).length = c.qOrder.length :=
      List.length_map _ _
    rcases scan_lockstep (countVisited c.entries c.qOrder + 2) c.qOrder c.entries c.entries
        (c.qOrder.map (visitedB c.entries)) start sid hnd hflen hsid hrelinit with
      ⟨hfo, _⟩ | ⟨p, victim, flags2, entries2, hspec, hvic, hfound, hflen2, hfp, hrel2⟩
    · exact absurd hfo (evictLoopFuel_ne_fuelOut _ _ _ _
        (by rw [if_pos (List.get?_mem hsid)]; omega))
    · obtain ⟨e0, bv, hbase0, hfv, hentv⟩ := hrel2 p victim hvic
      have hbv : bv = false := by
        rw [hfp] at hfv
        exact (Option.some.inj hfv).symm
      subst hbv
      have hevict : evict c = (GoRes.ret e0.key none,
          { c with hand := listPrev c.qOrder victim,
                   qOrder := c.qOrder.erase victim,
                   size := c.size - 1,
                   entries := entries2,
                   keysMap := eraseA c.keysMap e0.key }) := by
        simp only [evict, hsz0, if_false, hmatch, hfound, hentv]
      have hhand2 : listPrev c.qOrder victim = (if p = 0 then none else c.qOrder.get? (p - 1)) := by
        cases p with
        | zero =>
          rw [if_pos rfl]
          exact listPrev_get?_zero c.qOrder victim hvic
        | succ p2 =>
          rw [if_neg (Nat.succ_ne_zero p2), Nat.add_sub_cancel]
          exact listPrev_get?_succ c.qOrder hnd p2 victim hvic
      refine ⟨p, victim, flags2, e0,
        { c with hand := listPrev c.qOrder victim,
                 qOrder := c.qOrder.erase victim,
                 size := c.size - 1,
                 entries := entries2,
                 keysMap := eraseA c.keysMap e0.key },
        hspec, hvic, hbase0, hfp, hevict, rfl, rfl, ?_, rfl, ?_, rfl, ?_⟩
      · exact erase_get?_eq_eraseIdx c.qOrder hnd p victim hvic
      · exact hhand2
      · exact hrel2
  rcases hh : c.hand with _ | h0
  · cases hlast : c.qOrder.getLast? with
    | none =>
      exfalso
      rw [List.getLast?_eq_get?, List.get?_eq_none] at hlast
      omega
    | some sid =>
      have hsid : c.qOrder.get? (c.qOrder.length - 1) = some sid := by
        rw [List.getLast?_eq_get?] at hlast
        exact hlast
      have hmatch : (match c.hand with | some h => some h | none => c.qOrder.getLast?) =
          some sid := by
        rw [hh]
        exact hlast
      obtain ⟨p, victim, flags2, e0, c2, hspec, hvic, hbase0, hfp, hevict,
        h1, h2, h3, h4, h5, h6, hrel⟩ := hmain (c.qOrder.length - 1) sid hsid hmatch
      exact ⟨c.qOrder.length - 1, p, victim, flags2, e0, c2, fun _ => rfl,
        fun h hhh => Option.noConfusion (hh.symm.trans hhh),
        hspec, hvic, hbase0, hfp, hevict, h1, h2, h3, h4, h5, h6, hrel⟩
  · have hmem : h0 ∈ c.qOrder := hhand h0 (by simp [hh])
    obtain ⟨start, hstartid⟩ := List.get?_of_mem hmem
    have hmatch : (match c.hand with | some h => some h | none => c.qOrder.getLast?) =
        some h0 := by
      rw [hh]
    obtain ⟨p, victim, flags2, e0, c2, hspec, hvic, hbase0, hfp, hevict,
      h1, h2, h3, h4, h5, h6, hrel⟩ := hmain start h0 hstartid hmatch
    exact ⟨start, p, victim, flags2, e0, c2,
      fun hnone => Option.noConfusion (hh.symm.trans hnone),
      fun h hhh => (Option.some.inj (hh.symm.trans hhh)) ▸ hstartid,
      hspec, hvic, hbase0, hfp, hevict, h1, h2, h3, h4, h5, h6, hrel⟩

/-- C4 witness: the concrete well-formed cache reached by the capacity-3
scenario satisfies the hypotheses and the conclusion. -/
theorem c4_evict_follows_spec_scan_witness :
    WF demoCache ∧ 0 < demoCache.size ∧ EvictFollowsScan demoCache :=
  ⟨by unfold WF; decide, by decide,
    c4_evict_follows_spec_scan demoCache (by unfold WF; decide) (by decide)⟩


/-- C6: the full routing of Set: identity when capacity is nonpositive; with
positive capacity a present key only gets its visited flag turned on (its
stored value stays), and an absent key is inserted at the head with
visited = false after one eviction when the cache is full. -/
theorem c6_set_semantics {K V : Type} [DecidableEq K] [Inhabited K] [Inhabited V]
    (c : Cache K V) (k : K) (v : V)
    (hpay : ∀ id ∈ (lookupA c.keysMap k).toList, (lookupA c.entries id).isSome = true) :
    SetBehaviour c k v := by
  constructor
  · intro hcap
    simp only [Set, if_pos hcap]
  · intro hcap
    have hcap2 : ¬(c.capacity ≤ 0) := not_le.mpr hcap
    refine ⟨?_, ?_⟩
    · intro id hid
      have hps := hpay id (by simp [hid])
      cases hl : lookupA c.entries id with
      | none => rw [hl] at hps; simp at hps
      | some e =>
        refine ⟨e, rfl, ?_⟩
        simp only [Set, if_neg hcap2, Get, hid, hl]
    · intro habs
      refine ⟨?_, ?_⟩
      · intro hne
        simp only [Set, if_neg hcap2, Get, habs, if_neg hne, pushNew]
      · intro heq r c2 hev
        refine ⟨?_, ?_⟩
        · intro hr
          subst hr
          simp only [Set, if_neg hcap2, Get, habs, if_pos heq, hev]
        · intro hr
          cases r with
          | panicked => exact absurd rfl hr
          | ret kk err =>
            simp only [Set, if_neg hcap2, Get, habs, if_pos heq, hev, pushNew]

/-- C6 witness: on the concrete scenario cache, Set on the present key 1
satisfies the stated behaviour. -/
theorem c6_set_semantics_witness :
    (∀ id ∈ (lookupA demoCache.keysMap 1).toList,
      (lookupA demoCache.entries id).isSome = true) ∧
    SetBehaviour demoCache 1 99 :=
  ⟨by decide, c6_set_semantics demoCache 1 99 (by decide)⟩

theorem resizeLoop_eq_evictTimes {K V : Type} [DecidableEq K] [Inhabited K] :
    ∀ (n : Nat) (c : Cache K V), resizeLoop n c = evictTimes n c := by
  intro n
  induction n with
  | zero => intro c; rfl
  | succ n ih =>
    intro c
    simp only [resizeLoop, evictTimes]
    cases hev : evict c with
    | mk r c1 =>
      cases r with
      | panicked => rfl
      | ret kk err =>
        cases err with
        | none => dsimp only; rw [ih]
        | some e => dsimp only; exact ih c1

/-- C8 counterexample: the claim says Resize always ends with the requested
capacity.  On the reachable state after Set(1,10), Set(2,20), Delete(1),
Delete(2) the entry store is empty while size is still 2, so Resize(0)
computes an excess of 2, the first evict call dereferences a nil Back()
and panics, and the capacity is never set. -/
theorem c8_resize_can_panic :
    (runOps (NewCache 5 : Cache Nat Nat)
        [Op.set 1 10, Op.set 2 20, Op.deleteOp 1, Op.deleteOp 2]).map
        (fun c => (c.qOrder, Size c, Resize c 0)) =
      some ([], 2, none) := by
  decide

/-- C8 amended: growing (or keeping) the capacity only records it and evicts
nothing; shrinking computes the excess size - n once, as the int64
subtraction of the source, which wraps on overflow (so a huge negative n
can make the count negative and evict nothing), and behaves exactly as
calling evict that (wrapped, clamped at zero) many times, ignoring per-call
error returns and collecting the evicted keys in order, finally recording
the new capacity - provided no evict call panics (a panic, possible only in
states corrupted through the Delete size defect, aborts Resize before the
capacity is set, and both sides below are none). -/
theorem c8_resize_refines_evict_times {K V : Type} [DecidableEq K] [Inhabited K] [Inhabited V] :
    (∀ (c : Cache K V) (n : Int), c.capacity ≤ n →
      Resize c n = some ([], { c with capacity := n })) ∧
    (∀ (c : Cache K V) (n : Int), n < c.capacity →
      Resize c n = (evictTimes (wrap64 (c.size - n)).toNat c).map
        (fun r => (r.1, { r.2 with capacity := n }))) := by
  constructor
  · intro c n h
    simp only [Resize, if_pos h]
  · intro c n h
    have h2 : ¬(c.capacity ≤ n) := not_le.mpr h
    simp only [Resize, if_neg h2, resizeLoop_eq_evictTimes]

/-- C8 witness: growing a fresh capacity-3 cache to 5 keeps everything and
returns no evicted keys; and on the one-entry cache, shrinking to the
smallest int64 value evicts nothing because the excess subtraction wraps to
a negative count, matching the Go run. -/
theorem c8_resize_refines_evict_times_witness :
    ((NewCache 3 : Cache Nat Nat).capacity ≤ 5 ∧
      Resize (NewCache 3 : Cache Nat Nat) 5 =
        some ([], { (NewCache 3 : Cache Nat Nat) with capacity := 5 })) ∧
    ((-9223372036854775808 : Int) < smallCache.capacity ∧
      Resize smallCache (-9223372036854775808) =
        some ([], { smallCache with capacity := -9223372036854775808 })) :=
  ⟨⟨by decide, c8_resize_refines_evict_times.1 (NewCache 3) 5 (by decide)⟩,
   ⟨by decide,
    (c8_resize_refines_evict_times.2 smallCache (-9223372036854775808) (by decide)).trans
      (by decide)⟩⟩

end Sieve
